import Mathlib

/-!
Verification of the streaming zstd content decoder and the request/session
keyword-argument handling of the reqwests module.

Bytes are modelled as natural numbers and byte strings as lists.  The
zstandard decompression engine itself is an external dependency of the
module; following the specification, it is modelled as a streaming
decompressor for a self-delimiting frame format: a frame consists of a
length header (a run of nonzero continuation bytes, each adding one to the
payload length, closed by a zero byte) followed by the payload bytes kept
verbatim.  The engine exposes exactly the interface the source code uses:
decompress, eof, unused_data and flush.  The `ZstdDecoder` class, its
decode loop and flush check, and the kwargs/header pipelines of `request`
and `Session.request` are translated directly from the source.
-/

/-- Modelled from the spec: the internal state of one frame decompression
context — still reading the length header, reading a body with a known
number of remaining bytes, or complete (end of stream reached). -/
inductive Phase where
  | header : Nat → Phase
  | body : Nat → Phase
  | done : Phase
deriving DecidableEq, Repr

/-- Modelled from the spec: whether the context has reached the complete
end-of-stream state. -/
def Phase.isDone : Phase → Bool
  | Phase.done => true
  | _ => false

/-- Modelled from the spec: feed bytes into a single frame context.  Returns
the final phase, the decompressed output produced, and the bytes left over
after the frame reached its end-of-stream marker (the unused data). -/
def runBytes : Phase → List Nat → Phase × List Nat × List Nat
  | ph, [] => (ph, [], [])
  | Phase.done, b :: rest => (Phase.done, [], b :: rest)
  | Phase.header acc, b :: rest =>
    if b = 0 then
      (if acc = 0 then runBytes Phase.done rest else runBytes (Phase.body acc) rest)
    else runBytes (Phase.header (acc + 1)) rest
  | Phase.body n, b :: rest =>
    ((runBytes (if n = 1 then Phase.done else Phase.body (n - 1)) rest).1,
     b :: (runBytes (if n = 1 then Phase.done else Phase.body (n - 1)) rest).2.1,
     (runBytes (if n = 1 then Phase.done else Phase.body (n - 1)) rest).2.2)

/-- Modelled from the spec: the decompression object handle, holding the
live frame context and any buffered unused trailing bytes. -/
structure DecompressObj where
  phase : Phase
  unused_data : List Nat
deriving DecidableEq, Repr

/-- Modelled from the spec: a freshly constructed decompression context,
as built by ZstdDecompressor().decompressobj(). -/
def DecompressObj.fresh : DecompressObj :=
  ⟨Phase.header 0, []⟩

/-- Modelled from the spec: the decompress call of the engine.  Bytes are
fed to the current frame context; once the frame is complete, the remaining
bytes are appended to the unused data and no further output is produced. -/
def DecompressObj.decompress (d : DecompressObj) (data : List Nat) :
    DecompressObj × List Nat :=
  (⟨(runBytes d.phase data).1, d.unused_data ++ (runBytes d.phase data).2.2⟩,
   (runBytes d.phase data).2.1)

/-- Modelled from the spec: the eof attribute of the engine. -/
def DecompressObj.eof (d : DecompressObj) : Bool :=
  d.phase.isDone

/-- Modelled from the spec: the flush call of the engine returns any final
buffered decompressed bytes; output is produced eagerly in this model, so
nothing remains buffered. -/
def DecompressObj.flush (_ : DecompressObj) : List Nat :=
  []

/-- Modelled from the spec: compression of a payload into one valid frame —
a length header (one nonzero byte per payload byte, closed by a zero byte)
followed by the payload. -/
def compress (p : List Nat) : List Nat :=
  List.replicate p.length 1 ++ 0 :: p

/-- The ZstdDecoder class of the source: a content decoder holding one
decompression object. -/
structure ZstdDecoder where
  decompressor : DecompressObj
deriving DecidableEq, Repr

/-- ZstdDecoder.__init__: a fresh decoder with a fresh decompression
context. -/
def ZstdDecoder.new : ZstdDecoder :=
  ⟨DecompressObj.fresh⟩

/-- The while loop of ZstdDecoder.decode: while the current context is at
eof and has unused data, replace it by a fresh context fed with that unused
data, collecting the produced parts.  The loop strictly shrinks the unused
data, so a fuel of its initial length suffices (proved below). -/
def ZstdDecoder.decodeLoop : Nat → DecompressObj → List (List Nat) →
    DecompressObj × List (List Nat)
  | 0, d, parts => (d, parts)
  | fuel + 1, d, parts =>
    if d.eof = true ∧ d.unused_data ≠ [] then
      ZstdDecoder.decodeLoop fuel (DecompressObj.fresh.decompress d.unused_data).1
        (parts ++ [(DecompressObj.fresh.decompress d.unused_data).2])
    else (d, parts)

/-- ZstdDecoder.decode from the source: empty input returns empty output
unchanged; otherwise the chunk is fed to the current decompressor and the
frame-restart loop runs, and the collected parts are joined. -/
def ZstdDecoder.decode (z : ZstdDecoder) (data : List Nat) :
    ZstdDecoder × List Nat :=
  if data = [] then (z, [])
  else
    (⟨(ZstdDecoder.decodeLoop (z.decompressor.decompress data).1.unused_data.length
        (z.decompressor.decompress data).1 [(z.decompressor.decompress data).2]).1⟩,
     (ZstdDecoder.decodeLoop (z.decompressor.decompress data).1.unused_data.length
        (z.decompressor.decompress data).1 [(z.decompressor.decompress data).2]).2.flatten)

/-- ZstdDecoder.flush from the source: take the final buffered bytes of the
decompressor, raise DecodingError if the context is not at eof, otherwise
return them. -/
def ZstdDecoder.flush (z : ZstdDecoder) : Except String (List Nat) :=
  if z.decompressor.eof = true then Except.ok z.decompressor.flush
  else Except.error "Zstandard data is incomplete"

/-- Specification-level single pass over a byte stream: identical to the
frame context transitions, but restarting a fresh frame whenever the
previous frame completed and more bytes follow.  Used as the reference
semantics the decoder is proved to implement. -/
def procBytes : Phase → List Nat → Phase × List Nat
  | ph, [] => (ph, [])
  | Phase.done, b :: rest =>
    if b = 0 then procBytes Phase.done rest else procBytes (Phase.header 1) rest
  | Phase.header acc, b :: rest =>
    if b = 0 then
      (if acc = 0 then procBytes Phase.done rest else procBytes (Phase.body acc) rest)
    else procBytes (Phase.header (acc + 1)) rest
  | Phase.body n, b :: rest =>
    ((procBytes (if n = 1 then Phase.done else Phase.body (n - 1)) rest).1,
     b :: (procBytes (if n = 1 then Phase.done else Phase.body (n - 1)) rest).2)

/-- Successive decode calls of one decoder over a list of chunks, with the
outputs concatenated in order. -/
def decodeChunks : ZstdDecoder → List (List Nat) → ZstdDecoder × List Nat
  | z, [] => (z, [])
  | z, c :: rest =>
    ((decodeChunks (z.decode c).1 rest).1,
     (z.decode c).2 ++ (decodeChunks (z.decode c).1 rest).2)

/-- The full pipeline of the transport contract: a fresh decoder, decode
called on every chunk in order, then flush; the total output is the decode
outputs followed by the flush output. -/
def decodeAll (chunks : List (List Nat)) : Except String (List Nat) :=
  match (decodeChunks ZstdDecoder.new chunks).1.flush with
  | Except.ok tail => Except.ok ((decodeChunks ZstdDecoder.new chunks).2 ++ tail)
  | Except.error e => Except.error e

/-- Python values as they occur in the kwargs and header dictionaries of
the module: None, integers, strings, booleans and dictionaries (whose own
entries are only ever tested for emptiness). -/
inductive PyVal where
  | none : PyVal
  | int : Int → PyVal
  | str : String → PyVal
  | boolv : Bool → PyVal
  | dict : List (String × String) → PyVal
deriving DecidableEq, Repr

/-- Python truthiness of the modelled values. -/
def truthy : PyVal → Bool
  | PyVal.none => false
  | PyVal.int n => n != 0
  | PyVal.str s => !s.isEmpty
  | PyVal.boolv b => b
  | PyVal.dict d => !d.isEmpty

/-- Lookup of a key in an ordered dictionary, first entry wins. -/
def lookupV : List (String × PyVal) → String → Option PyVal
  | [], _ => none
  | kv :: t, k => if kv.1 == k then some kv.2 else lookupV t k

/-- Key-membership test of an ordered dictionary. -/
def hasKey : List (String × PyVal) → String → Bool
  | [], _ => false
  | kv :: t, k => kv.1 == k || hasKey t k

/-- DEFAULT_TIMEOUT from the source. -/
def DEFAULT_TIMEOUT : Int := 45

/-- The kwargs preparation of the module-level request function: insert the
default timeout when the caller supplied none. -/
def request_kwargs (kwargs : List (String × PyVal)) : List (String × PyVal) :=
  if hasKey kwargs "timeout" then kwargs
  else kwargs ++ [("timeout", PyVal.int DEFAULT_TIMEOUT)]

/-- The kwargs preparation of Session.request: insert the default timeout
when absent, then drop every entry whose value is falsy. -/
def Session.request_kwargs (kwargs : List (String × PyVal)) :
    List (String × PyVal) :=
  (if hasKey kwargs "timeout" then kwargs
   else kwargs ++ [("timeout", PyVal.int DEFAULT_TIMEOUT)]).filter
    (fun kv => truthy kv.2)

/-- Python dictionary union a | b: entries of a in order with values
overridden by b where the key collides, followed by the entries of b whose
keys are new. -/
def dictUnion (a b : List (String × PyVal)) : List (String × PyVal) :=
  a.map (fun kv => (kv.1, (lookupV b kv.1).getD kv.2)) ++
    b.filter (fun kv => !hasKey a kv.1)

/-- The header pipeline of Session.request: session headers merged with the
per-request headers (per-request entries winning), then every entry with a
None value removed. -/
def Session.mergeHeaders (sessionHeaders reqHeaders : List (String × PyVal)) :
    List (String × PyVal) :=
  (dictUnion sessionHeaders reqHeaders).filter (fun kv => kv.2 != PyVal.none)

theorem runBytes_done (l : List Nat) : runBytes Phase.done l = (Phase.done, [], l) := by
  cases l <;> rfl

theorem runBytes_unused_le (l : List Nat) : ∀ ph : Phase,
    ((runBytes ph l).2.2).length ≤ l.length := by
  induction l with
  | nil => intro ph; simp [runBytes]
  | cons b rest ih =>
    intro ph
    cases ph with
    | done => simp [runBytes]
    | header acc =>
      by_cases hb : b = 0
      · by_cases ha : acc = 0 <;> simp [runBytes, hb, ha] <;>
          exact Nat.le_succ_of_le (ih _)
      · simp [runBytes, hb]
        exact Nat.le_succ_of_le (ih _)
    | body n =>
      simp [runBytes]
      exact Nat.le_succ_of_le (ih _)

theorem runBytes_unused_lt (l : List Nat) (ph : Phase) (hph : ph ≠ Phase.done)
    (hl : l ≠ []) : ((runBytes ph l).2.2).length < l.length := by
  cases l with
  | nil => exact absurd rfl hl
  | cons b rest =>
    cases ph with
    | done => exact absurd rfl hph
    | header acc =>
      by_cases hb : b = 0
      · by_cases ha : acc = 0 <;> simp [runBytes, hb, ha, Nat.lt_succ_iff] <;>
          exact runBytes_unused_le rest _
      · simp [runBytes, hb, Nat.lt_succ_iff]
        exact runBytes_unused_le rest _
    | body n =>
      simp [runBytes, Nat.lt_succ_iff]
      exact runBytes_unused_le rest _

theorem runBytes_done_or_unused_nil (l : List Nat) : ∀ ph : Phase,
    (runBytes ph l).1 = Phase.done ∨ (runBytes ph l).2.2 = [] := by
  induction l with
  | nil => intro ph; right; simp [runBytes]
  | cons b rest ih =>
    intro ph
    cases ph with
    | done => left; simp [runBytes]
    | header acc =>
      by_cases hb : b = 0
      · by_cases ha : acc = 0 <;> simp [runBytes, hb, ha] <;> exact ih _
      · simp [runBytes, hb]
        exact ih _
    | body n =>
      simp [runBytes]
      exact ih _

theorem runBytes_append (a : List Nat) : ∀ (b : List Nat) (ph : Phase),
    runBytes ph (a ++ b) =
      ((runBytes (runBytes ph a).1 b).1,
       (runBytes ph a).2.1 ++ (runBytes (runBytes ph a).1 b).2.1,
       (runBytes ph a).2.2 ++ (runBytes (runBytes ph a).1 b).2.2) := by
  induction a with
  | nil => intro b ph; simp [runBytes]
  | cons c a ih =>
    intro b ph
    cases ph with
    | done => simp [runBytes, runBytes_done]
    | header acc =>
      by_cases hb : c = 0
      · by_cases ha : acc = 0 <;> simp [runBytes, hb, ha, ih]
      · simp [runBytes, hb, ih]
    | body n => simp [runBytes, ih]

theorem runBytes_replicate (n : Nat) : ∀ (acc : Nat) (e : List Nat),
    runBytes (Phase.header acc) (List.replicate n 1 ++ 0 :: e) =
      if acc + n = 0 then runBytes Phase.done e
      else runBytes (Phase.body (acc + n)) e := by
  induction n with
  | zero =>
    intro acc e
    by_cases ha : acc = 0 <;> simp [runBytes, ha]
  | succ n ih =>
    intro acc e
    have h1 : acc + 1 + n = acc + (n + 1) := by omega
    simp [List.replicate_succ, runBytes, ih, h1]

theorem runBytes_body_payload (p : List Nat) : ∀ e : List Nat, p ≠ [] →
    runBytes (Phase.body p.length) (p ++ e) = (Phase.done, p, e) := by
  induction p with
  | nil => intro e h; exact absurd rfl h
  | cons b p ih =>
    intro e _
    by_cases hp : p = []
    · subst hp
      simp [runBytes, runBytes_done]
    · have hlen : p.length + 1 ≠ 1 := by
        intro hc
        exact hp (List.length_eq_zero.1 (by omega))
      simp only [List.cons_append, List.length_cons, runBytes, List.append_eq]
      rw [if_neg hlen]
      simp only [Nat.add_sub_cancel]
      rw [ih e hp]

theorem compress_ne_nil (p : List Nat) : compress p ≠ [] := by
  simp [compress]

theorem runBytes_compress (p e : List Nat) :
    runBytes (Phase.header 0) (compress p ++ e) = (Phase.done, p, e) := by
  unfold compress
  rw [List.append_assoc, List.cons_append, runBytes_replicate]
  by_cases hp : p = []
  · subst hp
    simp [runBytes_done]
  · rw [if_neg (by simp [List.length_eq_zero, hp])]
    simp only [Nat.zero_add]
    exact runBytes_body_payload p e hp

theorem procBytes_done_eq_header (l : List Nat) (h : l ≠ []) :
    procBytes Phase.done l = procBytes (Phase.header 0) l := by
  cases l with
  | nil => exact absurd rfl h
  | cons b rest => by_cases hb : b = 0 <;> simp [procBytes, hb]

theorem procBytes_append (a : List Nat) : ∀ (b : List Nat) (ph : Phase),
    procBytes ph (a ++ b) =
      ((procBytes (procBytes ph a).1 b).1,
       (procBytes ph a).2 ++ (procBytes (procBytes ph a).1 b).2) := by
  induction a with
  | nil => intro b ph; simp [procBytes]
  | cons c a ih =>
    intro b ph
    cases ph with
    | done => by_cases hb : c = 0 <;> simp [procBytes, hb, ih]
    | header acc =>
      by_cases hb : c = 0
      · by_cases ha : acc = 0 <;> simp [procBytes, hb, ha, ih]
      · simp [procBytes, hb, ih]
    | body n => simp [procBytes, ih]

theorem procBytes_eq_runBytes (l : List Nat) : ∀ ph : Phase,
    procBytes ph l =
      if (runBytes ph l).2.2 = [] then ((runBytes ph l).1, (runBytes ph l).2.1)
      else ((procBytes Phase.done (runBytes ph l).2.2).1,
            (runBytes ph l).2.1 ++ (procBytes Phase.done (runBytes ph l).2.2).2) := by
  induction l with
  | nil => intro ph; simp [procBytes, runBytes]
  | cons b rest ih =>
    intro ph
    cases ph with
    | done => simp [runBytes]
    | header acc =>
      by_cases hb : b = 0
      · by_cases ha : acc = 0 <;> simp only [procBytes, runBytes, hb, if_pos, if_neg, ha,
          ite_true, ite_false] <;> exact ih _
      · simp only [procBytes, runBytes, hb, ite_false, if_neg, not_false_iff]
        exact ih _
    | body n =>
      simp only [procBytes, runBytes]
      rw [ih]
      by_cases h :
          (runBytes (if n = 1 then Phase.done else Phase.body (n - 1)) rest).2.2 = [] <;>
        simp [h]

theorem procBytes_compress_append (p e : List Nat) :
    procBytes Phase.done (compress p ++ e) =
      ((procBytes Phase.done e).1, p ++ (procBytes Phase.done e).2) := by
  have hne : compress p ++ e ≠ [] := by simp [compress]
  rw [procBytes_done_eq_header _ hne, procBytes_eq_runBytes, runBytes_compress]
  by_cases he : e = []
  · subst he
    simp [procBytes]
  · simp [he]

theorem procBytes_header_compress (p : List Nat) :
    procBytes (Phase.header 0) (compress p) = (Phase.done, p) := by
  rw [← procBytes_done_eq_header _ (compress_ne_nil p)]
  have h := procBytes_compress_append p []
  simpa [procBytes] using h

theorem procBytes_frames (ps : List (List Nat)) :
    procBytes Phase.done ((ps.map compress).flatten) = (Phase.done, ps.flatten) := by
  induction ps with
  | nil => simp [procBytes]
  | cons p rest ih =>
    simp only [List.map_cons, List.flatten_cons]
    rw [procBytes_compress_append, ih]

theorem decodeLoop_unused_nil (fuel : Nat) (d : DecompressObj)
    (parts : List (List Nat)) (h : d.unused_data = []) :
    ZstdDecoder.decodeLoop fuel d parts = (d, parts) := by
  cases fuel with
  | zero => rfl
  | succ fuel => simp [ZstdDecoder.decodeLoop, h]

theorem decodeLoop_done_spec (fuel : Nat) : ∀ (u : List Nat) (parts : List (List Nat)),
    u.length ≤ fuel → u ≠ [] →
    (ZstdDecoder.decodeLoop fuel ⟨Phase.done, u⟩ parts).1 =
        ⟨(procBytes Phase.done u).1, []⟩ ∧
    ((ZstdDecoder.decodeLoop fuel ⟨Phase.done, u⟩ parts).2).flatten =
        parts.flatten ++ (procBytes Phase.done u).2 := by
  induction fuel with
  | zero =>
    intro u parts hle hne
    exact absurd (List.length_eq_zero.1 (Nat.le_zero.1 hle)) hne
  | succ fuel ih =>
    intro u parts hle hne
    rcases hrb : runBytes (Phase.header 0) u with ⟨ph1, rest⟩
    rcases rest with ⟨o1, u1⟩
    have hdec : DecompressObj.fresh.decompress u = (⟨ph1, u1⟩, o1) := by
      simp [DecompressObj.decompress, DecompressObj.fresh, hrb]
    have hpb : procBytes Phase.done u =
        if u1 = [] then (ph1, o1)
        else ((procBytes Phase.done u1).1, o1 ++ (procBytes Phase.done u1).2) := by
      rw [procBytes_done_eq_header _ hne, procBytes_eq_runBytes, hrb]
    have hstep : ZstdDecoder.decodeLoop (fuel + 1) ⟨Phase.done, u⟩ parts =
        ZstdDecoder.decodeLoop fuel ⟨ph1, u1⟩ (parts ++ [o1]) := by
      simp only [ZstdDecoder.decodeLoop]
      rw [if_pos ⟨rfl, hne⟩]
      rw [hdec]
    rw [hstep]
    by_cases hu1 : u1 = []
    · subst hu1
      rw [decodeLoop_unused_nil fuel ⟨ph1, []⟩ _ rfl]
      rw [if_pos rfl] at hpb
      simp [hpb]
    · have hph1 : ph1 = Phase.done := by
        rcases runBytes_done_or_unused_nil u (Phase.header 0) with h | h
        · rw [hrb] at h; exact h
        · rw [hrb] at h; exact absurd h hu1
      subst hph1
      have hlt : u1.length < u.length := by
        have h := runBytes_unused_lt u (Phase.header 0) (by simp) hne
        rw [hrb] at h
        exact h
      obtain ⟨ih1, ih2⟩ := ih u1 (parts ++ [o1]) (by omega) hu1
      rw [if_neg hu1] at hpb
      refine ⟨?_, ?_⟩
      · rw [ih1, hpb]
      · rw [ih2, hpb]
        simp

theorem decodeLoop_post (fuel : Nat) : ∀ (d : DecompressObj) (parts : List (List Nat)),
    d.unused_data.length ≤ fuel →
    ¬((ZstdDecoder.decodeLoop fuel d parts).1.eof = true ∧
      (ZstdDecoder.decodeLoop fuel d parts).1.unused_data ≠ []) := by
  induction fuel with
  | zero =>
    intro d parts hle
    have h0 : d.unused_data = [] := List.length_eq_zero.1 (Nat.le_zero.1 hle)
    simp [ZstdDecoder.decodeLoop, h0]
  | succ fuel ih =>
    intro d parts hle
    by_cases hc : d.eof = true ∧ d.unused_data ≠ []
    · simp only [ZstdDecoder.decodeLoop]
      rw [if_pos hc]
      apply ih
      have hlt := runBytes_unused_lt d.unused_data (Phase.header 0) (by simp) hc.2
      simp only [DecompressObj.decompress, DecompressObj.fresh, List.nil_append]
      omega
    · simp only [ZstdDecoder.decodeLoop]
      rw [if_neg hc]
      exact hc

theorem decode_clean (ph : Phase) (data : List Nat) :
    ZstdDecoder.decode ⟨⟨ph, []⟩⟩ data =
      (⟨⟨(procBytes ph data).1, []⟩⟩, (procBytes ph data).2) := by
  by_cases hd : data = []
  · subst hd
    simp [ZstdDecoder.decode, procBytes]
  · simp only [ZstdDecoder.decode]
    rw [if_neg hd]
    rcases hrb : runBytes ph data with ⟨ph1, rest⟩
    rcases rest with ⟨o1, u1⟩
    have hdec : (⟨⟨ph, []⟩⟩ : ZstdDecoder).decompressor.decompress data = (⟨ph1, u1⟩, o1) := by
      simp [DecompressObj.decompress, hrb]
    have hpb := procBytes_eq_runBytes data ph
    rw [hrb] at hpb
    rw [hdec]
    dsimp only
    by_cases hu1 : u1 = []
    · subst hu1
      rw [decodeLoop_unused_nil _ _ _ rfl]
      rw [if_pos rfl] at hpb
      simp [hpb]
    · have hph1 : ph1 = Phase.done := by
        rcases runBytes_done_or_unused_nil data ph with h | h
        · rw [hrb] at h; exact h
        · rw [hrb] at h; exact absurd h hu1
      subst hph1
      obtain ⟨h1, h2⟩ := decodeLoop_done_spec u1.length u1 [o1] (le_refl _) hu1
      rw [if_neg hu1] at hpb
      simp only [h1, h2, hpb]
      simp

theorem decodeChunks_clean (chunks : List (List Nat)) : ∀ ph : Phase,
    decodeChunks ⟨⟨ph, []⟩⟩ chunks =
      (⟨⟨(procBytes ph chunks.flatten).1, []⟩⟩, (procBytes ph chunks.flatten).2) := by
  induction chunks with
  | nil => intro ph; simp [decodeChunks, procBytes]
  | cons c rest ih =>
    intro ph
    simp only [decodeChunks, List.flatten_cons]
    rw [decode_clean]
    dsimp only
    rw [ih, procBytes_append]

theorem decodeAll_spec (chunks : List (List Nat)) :
    decodeAll chunks =
      if (procBytes (Phase.header 0) chunks.flatten).1 = Phase.done
      then Except.ok (procBytes (Phase.header 0) chunks.flatten).2
      else Except.error "Zstandard data is incomplete" := by
  have hnew : ZstdDecoder.new = ⟨⟨Phase.header 0, []⟩⟩ := rfl
  unfold decodeAll
  rw [hnew, decodeChunks_clean]
  by_cases h : (procBytes (Phase.header 0) chunks.flatten).1 = Phase.done
  · rw [if_pos h, h]
    simp [ZstdDecoder.flush, DecompressObj.eof, DecompressObj.flush, Phase.isDone]
  · rw [if_neg h]
    have hfl : ((⟨⟨(procBytes (Phase.header 0) chunks.flatten).1, []⟩⟩ :
        ZstdDecoder)).flush = Except.error "Zstandard data is incomplete" := by
      cases hph : (procBytes (Phase.header 0) chunks.flatten).1 <;>
        simp_all [ZstdDecoder.flush, DecompressObj.eof, Phase.isDone]
    rw [hfl]

theorem hasKey_false_lookup_none (l : List (String × PyVal)) (k : String) :
    hasKey l k = false → lookupV l k = none := by
  induction l with
  | nil => intro _; rfl
  | cons kv t ih =>
    intro h
    simp only [hasKey, Bool.or_eq_false_iff] at h
    simp [lookupV, h.1, ih h.2]

theorem hasKey_of_lookupV (l : List (String × PyVal)) (k : String) (v : PyVal) :
    lookupV l k = some v → hasKey l k = true := by
  induction l with
  | nil => intro h; cases h
  | cons kv t ih =>
    intro h
    by_cases hk : (kv.1 == k) = true
    · simp [hasKey, hk]
    · simp only [Bool.not_eq_true] at hk
      simp only [lookupV, hk] at h
      simp [hasKey, hk, ih h]

theorem lookupV_append (a b : List (String × PyVal)) (k : String) :
    lookupV (a ++ b) k = if hasKey a k then lookupV a k else lookupV b k := by
  induction a with
  | nil => simp [lookupV, hasKey]
  | cons kv t ih =>
    by_cases hk : (kv.1 == k) = true
    · simp [lookupV, hasKey, hk]
    · simp only [Bool.not_eq_true] at hk
      simp [lookupV, hasKey, hk, ih]

theorem lookupV_filter (l : List (String × PyVal)) (k : String) (v : PyVal)
    (q : String × PyVal → Bool) :
    lookupV l k = some v → q (k, v) = true → lookupV (l.filter q) k = some v := by
  induction l with
  | nil => intro h _; cases h
  | cons kv t ih =>
    intro h hq
    by_cases hk : (kv.1 == k) = true
    · have hk1 : kv.1 = k := by simpa using hk
      simp only [lookupV, hk, if_pos] at h
      have hv2 : kv.2 = v := by simpa using h
      have hqkv : q kv = true := by
        have hkv : kv = (k, v) := by
          cases kv
          simp_all
        rw [hkv]
        exact hq
      simp [List.filter_cons, hqkv, lookupV, hk, hv2]
    · simp only [Bool.not_eq_true] at hk
      simp only [lookupV, hk] at h
      simp only [Bool.false_eq_true, if_false] at h
      by_cases hq2 : q kv = true <;> simp [List.filter_cons, hq2, lookupV, hk] <;>
        exact ih h hq

theorem hasKey_filter_false (l : List (String × PyVal)) (k : String)
    (q : String × PyVal → Bool) :
    hasKey l k = false → hasKey (l.filter q) k = false := by
  induction l with
  | nil => intro _; rfl
  | cons kv t ih =>
    intro h
    simp only [hasKey, Bool.or_eq_false_iff] at h
    by_cases hq : q kv = true <;> simp [List.filter_cons, hq, hasKey, h.1, ih h.2]

theorem hasKey_append (a b : List (String × PyVal)) (k : String) :
    hasKey (a ++ b) k = (hasKey a k || hasKey b k) := by
  induction a with
  | nil => simp [hasKey]
  | cons kv t ih => simp [hasKey, ih, Bool.or_assoc]

theorem hasKey_map_fst (a rh : List (String × PyVal)) (k : String) :
    hasKey (a.map (fun kv => (kv.1, (lookupV rh kv.1).getD kv.2))) k = hasKey a k := by
  induction a with
  | nil => rfl
  | cons kv t ih => simp [hasKey, List.map_cons, ih]

theorem lookupV_map_union (a rh : List (String × PyVal)) (k : String) (v : PyVal) :
    lookupV rh k = some v → hasKey a k = true →
    lookupV (a.map (fun kv => (kv.1, (lookupV rh kv.1).getD kv.2))) k = some v := by
  induction a with
  | nil =>
    intro _ h
    simp [hasKey] at h
  | cons kv t ih =>
    intro hr hh
    by_cases hk : (kv.1 == k) = true
    · have hk1 : kv.1 = k := by simpa using hk
      simp [List.map_cons, lookupV, hk, hk1, hr]
    · simp only [Bool.not_eq_true] at hk
      simp only [hasKey, hk, Bool.false_or] at hh
      simp [List.map_cons, lookupV, hk, ih hr hh]

theorem lookupV_map_getD (a rh : List (String × PyVal)) (k : String) (v : PyVal) :
    lookupV a k = some v → lookupV rh k = none →
    lookupV (a.map (fun kv => (kv.1, (lookupV rh kv.1).getD kv.2))) k = some v := by
  induction a with
  | nil => intro h _; cases h
  | cons kv t ih =>
    intro ha hr
    by_cases hk : (kv.1 == k) = true
    · have hk1 : kv.1 = k := by simpa using hk
      simp only [lookupV, hk, if_pos] at ha
      have hv2 : kv.2 = v := by simpa using ha
      simp [List.map_cons, lookupV, hk, hk1, hr, hv2]
    · simp only [Bool.not_eq_true] at hk
      simp only [lookupV, hk] at ha
      simp only [Bool.false_eq_true, if_false] at ha
      simp [List.map_cons, lookupV, hk, ih ha hr]

/-- C1: for payloads independently compressed into valid single frames,
feeding the concatenated frames to a fresh ZstdDecoder via decode() calls
split at any byte boundaries (one chunk, split exactly at a frame boundary,
or split mid-frame), then calling flush(), yields exactly the concatenation
of the payloads; this holds for any number of concatenated frames. -/
theorem decode_multiframe_any_split (ps chunks : List (List Nat))
    (hps : ps ≠ []) (hj : chunks.flatten = (ps.map compress).flatten) :
    decodeAll chunks = Except.ok ps.flatten := by
  rw [decodeAll_spec, hj]
  have hne : (ps.map compress).flatten ≠ [] := by
    cases ps with
    | nil => exact absurd rfl hps
    | cons p rest =>
      simp only [List.map_cons, List.flatten_cons]
      intro hcontra
      exact compress_ne_nil p (List.append_eq_nil.1 hcontra).1
  rw [← procBytes_done_eq_header _ hne, procBytes_frames]
  simp

/-- Witness for C1: two frames for payloads [3, 4] and [5] delivered in
three chunks whose boundaries fall inside the frames. -/
theorem decode_multiframe_any_split_witness :
    decodeAll [[1, 1, 0, 3], [4, 1], [0, 5]] = Except.ok [3, 4, 5] :=
  decode_multiframe_any_split [[3, 4], [5]] [[1, 1, 0, 3], [4, 1], [0, 5]]
    (by decide) (by decide)

/-- C2: flush() fails with the DecodingError-kind incomplete error exactly
when the current frame context has not reached a complete end-of-stream
state; a strict proper part of a valid single frame followed by flush()
fails with that error, a fresh decoder flushed with no prior decode fails
with it, and when the current frame is complete flush() succeeds returning
the final buffered bytes. -/
theorem flush_incomplete_iff :
    (∀ z : ZstdDecoder, (∃ e, z.flush = Except.error e) ↔ z.decompressor.eof = false) ∧
    (∀ z : ZstdDecoder, z.decompressor.eof = true →
        z.flush = Except.ok z.decompressor.flush) ∧
    ZstdDecoder.new.flush = Except.error "Zstandard data is incomplete" ∧
    decodeAll [] = Except.error "Zstandard data is incomplete" ∧
    (∀ p t rest : List Nat, rest ≠ [] → compress p = t ++ rest →
        decodeAll [t] = Except.error "Zstandard data is incomplete") := by
  refine ⟨?_, ?_, rfl, rfl, ?_⟩
  · intro z
    cases h : z.decompressor.eof <;> simp [ZstdDecoder.flush, h]
  · intro z h
    simp [ZstdDecoder.flush, h]
  · intro p t rest hrest hsplit
    rw [decodeAll_spec]
    have hflat : ([t] : List (List Nat)).flatten = t := by simp
    rw [hflat]
    have hcomp : runBytes (Phase.header 0) (t ++ rest) = (Phase.done, p, []) := by
      rw [← hsplit]
      have h := runBytes_compress p []
      simpa using h
    have happ := runBytes_append t rest (Phase.header 0)
    rw [hcomp] at happ
    have h3 := congrArg (fun q => q.2.2) happ
    dsimp only at h3
    have hu := List.append_eq_nil.1 h3.symm
    have hph : (runBytes (Phase.header 0) t).1 ≠ Phase.done := by
      intro hd
      have h2 := hu.2
      rw [hd, runBytes_done] at h2
      exact hrest h2
    have hpbt := procBytes_eq_runBytes t (Phase.header 0)
    rw [if_pos hu.1] at hpbt
    have hnotdone : (procBytes (Phase.header 0) t).1 ≠ Phase.done := by
      rw [hpbt]
      exact hph
    rw [if_neg hnotdone]

/-- Witness for C2: the first four bytes of the five-byte frame for the
payload [9, 9], then flush, gives the incomplete error. -/
theorem flush_incomplete_iff_witness :
    decodeAll [[1, 1, 0, 9]] = Except.error "Zstandard data is incomplete" :=
  flush_incomplete_iff.2.2.2.2 [9, 9] [1, 1, 0, 9] [9] (by decide) (by decide)

/-- C3: for a fixed compressed stream, the total output of all decode()
calls plus flush() depends only on the concatenation of the delivered
chunks, not on how the stream is partitioned. -/
theorem decode_chunk_invariance (c1 c2 : List (List Nat))
    (h : c1.flatten = c2.flatten) : decodeAll c1 = decodeAll c2 := by
  rw [decodeAll_spec, decodeAll_spec, h]

/-- Witness for C3: one frame delivered whole versus one byte at a time. -/
theorem decode_chunk_invariance_witness :
    decodeAll [[1, 0, 7]] = decodeAll [[1], [0], [7]] :=
  decode_chunk_invariance [[1, 0, 7]] [[1], [0], [7]] (by decide)

/-- C4: for every payload compressed into a single valid frame, a fresh
decoder given decode(frame) then flush() reproduces exactly the payload. -/
theorem decode_roundtrip (p : List Nat) :
    decodeAll [compress p] = Except.ok p := by
  rw [decodeAll_spec]
  have h : ([compress p] : List (List Nat)).flatten = compress p := by simp
  rw [h, procBytes_header_compress]
  simp

/-- C5: the only failure in the whole pipeline is the incomplete-frame
error raised at flush time — decode() itself raises nothing on any input,
in particular not-yet-complete bytes stay buffered in the open context
until later bytes complete the frame. -/
theorem decode_error_only_flush :
    (∀ chunks : List (List Nat),
        (∃ out, decodeAll chunks = Except.ok out) ∨
        decodeAll chunks = Except.error "Zstandard data is incomplete") ∧
    (∀ p t rest : List Nat, compress p = t ++ rest →
        decodeAll [t, rest] = Except.ok p) := by
  constructor
  · intro chunks
    rw [decodeAll_spec]
    by_cases h : (procBytes (Phase.header 0) chunks.flatten).1 = Phase.done
    · rw [if_pos h]
      exact Or.inl ⟨_, rfl⟩
    · rw [if_neg h]
      exact Or.inr rfl
  · intro p t rest hsplit
    rw [decodeAll_spec]
    have h : ([t, rest] : List (List Nat)).flatten = compress p := by
      simp [hsplit]
    rw [h, procBytes_header_compress]
    simp

/-- Witness for C5: the frame for [7] split into an incomplete part and
its completion is decoded across two calls without any error. -/
theorem decode_error_only_flush_witness :
    decodeAll [[1], [0, 7]] = Except.ok [7] :=
  decode_error_only_flush.2 [7] [1] [0, 7] (by decide)

/-- C6: decode(empty) returns empty output and leaves the decoder state
unchanged, and inserting an empty decode() call anywhere in a chunk
sequence does not change what the remaining decode() and flush() calls
produce. -/
theorem decode_empty_noop :
    (∀ z : ZstdDecoder, z.decode [] = (z, [])) ∧
    (∀ pre post : List (List Nat),
        decodeAll (pre ++ [] :: post) = decodeAll (pre ++ post)) := by
  constructor
  · intro z
    simp [ZstdDecoder.decode]
  · intro pre post
    rw [decodeAll_spec, decodeAll_spec]
    simp

/-- C7: a decoder holds one decompression context at a time; a fresh
decoder satisfies, and every decode() call preserves, the invariant that
the active context is never at end-of-stream while unused trailing bytes
are still pending (the loop feeds such bytes to a freshly constructed
context before decode returns). -/
theorem decoder_context_invariant :
    ¬(ZstdDecoder.new.decompressor.eof = true ∧
      ZstdDecoder.new.decompressor.unused_data ≠ []) ∧
    (∀ (z : ZstdDecoder) (data : List Nat),
        ¬(z.decompressor.eof = true ∧ z.decompressor.unused_data ≠ []) →
        ¬(((z.decode data).1).decompressor.eof = true ∧
          ((z.decode data).1).decompressor.unused_data ≠ [])) := by
  constructor
  · simp [ZstdDecoder.new, DecompressObj.fresh, DecompressObj.eof, Phase.isDone]
  · intro z data hz
    by_cases hd : data = []
    · subst hd
      simpa [ZstdDecoder.decode] using hz
    · simp only [ZstdDecoder.decode]
      rw [if_neg hd]
      exact decodeLoop_post _ _ _ (le_refl _)

/-- Witness for C7: the invariant holds after decoding a complete frame
followed by the first byte of a next frame. -/
theorem decoder_context_invariant_witness :
    ¬(((ZstdDecoder.new.decode [0, 1]).1).decompressor.eof = true ∧
      ((ZstdDecoder.new.decode [0, 1]).1).decompressor.unused_data ≠ []) :=
  decoder_context_invariant.2 ZstdDecoder.new [0, 1] (by decide)

/-- C8: both the module-level request function and Session.request apply a
default per-request timeout of 45 time-units whenever the caller supplies
no timeout argument. -/
theorem default_timeout_applied (kwargs : List (String × PyVal))
    (h : hasKey kwargs "timeout" = false) :
    lookupV (request_kwargs kwargs) "timeout" = some (PyVal.int 45) ∧
    lookupV (Session.request_kwargs kwargs) "timeout" = some (PyVal.int 45) := by
  constructor
  · unfold request_kwargs
    rw [if_neg (by simp [h]), lookupV_append, if_neg (by simp [h])]
    decide
  · unfold Session.request_kwargs
    rw [if_neg (by simp [h]), List.filter_append]
    have hf : List.filter (fun kv => truthy kv.2)
        [("timeout", PyVal.int DEFAULT_TIMEOUT)] =
        [("timeout", PyVal.int DEFAULT_TIMEOUT)] := by decide
    rw [hf, lookupV_append,
      if_neg (by simp [hasKey_filter_false kwargs "timeout" _ h])]
    decide

/-- Witness for C8 at an empty kwargs dictionary. -/
theorem default_timeout_applied_witness :
    lookupV (request_kwargs []) "timeout" = some (PyVal.int 45) ∧
    lookupV (Session.request_kwargs []) "timeout" = some (PyVal.int 45) :=
  default_timeout_applied [] (by decide)

/-- C9: Session.request sends the session headers merged with the
per-request headers, per-request entries taking precedence, and every entry
whose value is None is removed from the merged result. -/
theorem headers_merge_strip (sh rh : List (String × PyVal)) (k : String) (v : PyVal) :
    (lookupV rh k = some v → v ≠ PyVal.none →
        lookupV (Session.mergeHeaders sh rh) k = some v) ∧
    (hasKey rh k = false → lookupV sh k = some v → v ≠ PyVal.none →
        lookupV (Session.mergeHeaders sh rh) k = some v) ∧
    (∀ kv ∈ Session.mergeHeaders sh rh, kv.2 ≠ PyVal.none) ∧
    (hasKey sh k = false → hasKey rh k = false →
        hasKey (Session.mergeHeaders sh rh) k = false) := by
  refine ⟨?_, ?_, ?_, ?_⟩
  · intro hr hv
    unfold Session.mergeHeaders
    apply lookupV_filter
    · unfold dictUnion
      rw [lookupV_append, hasKey_map_fst]
      by_cases hs : hasKey sh k = true
      · rw [if_pos hs]
        exact lookupV_map_union sh rh k v hr hs
      · have hs2 : hasKey sh k = false := by simpa using hs
        rw [if_neg (by simp [hs2])]
        exact lookupV_filter rh k v _ hr (by simp [hs2])
    · simpa using hv
  · intro hrk hsk hv
    unfold Session.mergeHeaders
    apply lookupV_filter
    · unfold dictUnion
      rw [lookupV_append, hasKey_map_fst, if_pos (hasKey_of_lookupV sh k v hsk)]
      exact lookupV_map_getD sh rh k v hsk (hasKey_false_lookup_none rh k hrk)
    · simpa using hv
  · intro kv hkv
    unfold Session.mergeHeaders at hkv
    have h := (List.mem_filter.1 hkv).2
    simpa using h
  · intro hs hr
    unfold Session.mergeHeaders
    apply hasKey_filter_false
    unfold dictUnion
    rw [hasKey_append, hasKey_map_fst, hs]
    simp only [Bool.false_or]
    exact hasKey_filter_false rh k _ hr

/-- Witness for C9: a per-request header wins and survives the None
strip. -/
theorem headers_merge_strip_witness :
    lookupV (Session.mergeHeaders [("a", PyVal.str "1")] [("c", PyVal.str "3")])
      "c" = some (PyVal.str "3") :=
  (headers_merge_strip [("a", PyVal.str "1")] [("c", PyVal.str "3")] "c"
    (PyVal.str "3")).1 (by decide) (by decide)

/-- C10: Session.request drops every keyword argument whose value is falsy
before issuing the request; in particular a caller-supplied timeout of 0 is
not honored and not replaced by the 45-unit default, but removed entirely
(so the underlying HTTP library default applies). -/
theorem falsy_kwargs_dropped :
    (∀ (kwargs : List (String × PyVal)) (kv : String × PyVal),
        kv ∈ Session.request_kwargs kwargs → truthy kv.2 = true) ∧
    (∀ kwargs : List (String × PyVal), hasKey kwargs "timeout" = true →
        Session.request_kwargs kwargs =
          kwargs.filter (fun kv => truthy kv.2)) ∧
    Session.request_kwargs
        [("timeout", PyVal.int 0), ("data", PyVal.dict []),
         ("params", PyVal.str "")] = [] := by
  refine ⟨?_, ?_, by decide⟩
  · intro kwargs kv hkv
    unfold Session.request_kwargs at hkv
    exact (List.mem_filter.1 hkv).2
  · intro kwargs h
    unfold Session.request_kwargs
    rw [if_pos h]

/-- Witness for C10: an explicit timeout of 0 suppresses the default and is
then dropped. -/
theorem falsy_kwargs_dropped_witness :
    Session.request_kwargs [("timeout", PyVal.int 0)] = [] := by
  rw [falsy_kwargs_dropped.2.1 [("timeout", PyVal.int 0)] (by decide)]
  decide
